import Mathlib

/-!
Verification of the options-trading engine (optionstrader.py, journal_trades.py).

This file shallowly embeds the order execution and risk-sizing engine of the
repository in Lean 4 and settles the frozen claims about it.  Conventions:

* Python floats are modelled as exact rationals; the Black-Scholes estimator
  (which is genuinely real-valued) is modelled over the reals.
* Python exceptions are modelled with Except; a Python function that can raise
  returns an Except value whose error carries the exception message.
* Optional / missing dictionary fields are modelled with Option; a field whose
  Python truthiness gates behaviour keeps that gate in the model.
* HTTP endpoints are modelled as environment records supplying the data the
  code would fetch; one call of the Python function corresponds to one
  application of the Lean function to such an environment.
-/

/-- Rounding mode of Python round(): round half to even on an exact value. -/
def roundHalfEven (q : ℚ) : ℤ :=
  if q - (⌊q⌋ : ℚ) < 1/2 then ⌊q⌋
  else if 1/2 < q - (⌊q⌋ : ℚ) then ⌊q⌋ + 1
  else if Even ⌊q⌋ then ⌊q⌋ else ⌊q⌋ + 1

/-- Rounding mode ROUND_HALF_UP of decimal.Decimal: round half away from zero. -/
def roundHalfUp (q : ℚ) : ℤ :=
  if 0 ≤ q then ⌊q + 1/2⌋ else -⌊-q + 1/2⌋

/-- Python round(x, 2) on an exact value. -/
def roundTo2 (q : ℚ) : ℚ :=
  (roundHalfEven (q * 100) : ℚ) / 100

/-- MIN_ORDER_QTY constant of optionstrader.py. -/
def MIN_ORDER_QTY : ℚ := 1/100

/-- Embedding of optionstrader.compute_order_qty: size an order from a risk
budget and a price, rounded to the exchange increment. -/
def compute_order_qty (risk_usd price : ℚ) (min_qty : ℚ := MIN_ORDER_QTY) : ℚ :=
  if risk_usd = 0 ∨ price = 0 then 0
  else
    let qty := risk_usd / price
    let qty := if qty < min_qty then min_qty else qty
    let steps := roundHalfEven (qty / min_qty)
    let qty := (steps : ℚ) * min_qty
    roundTo2 qty

/-- Embedding of optionstrader.get_tick_size as seen by round_to_tick: the
tickSize field of the instrument record, defaulting to 0 when the field is
missing (float of the dict default 0).  A missing instrument record altogether
raises in get_tick_size itself; both degenerate cases surface as the hard
error below. -/
def get_tick_size (instTick : Option ℚ) : ℚ := instTick.getD 0

/-- Embedding of optionstrader.round_to_tick: round a price to the nearest
multiple of the instrument's tick, half away from zero on exact decimals,
raising ValueError when the tick is zero or missing. -/
def round_to_tick (price : ℚ) (instTick : Option ℚ) : Except String ℚ :=
  let tick := get_tick_size instTick
  if tick = 0 then .error "Tick size is zero or missing"
  else .ok ((roundHalfUp (price / tick) : ℚ) * tick)

theorem roundHalfEven_of_lo {q : ℚ} {k : ℤ} (h1 : (k : ℚ) ≤ q) (h2 : q < (k : ℚ) + 1/2) :
    roundHalfEven q = k := by
  have hf : ⌊q⌋ = k := Int.floor_eq_iff.mpr ⟨h1, by linarith⟩
  rw [roundHalfEven, hf, if_pos (by linarith)]

theorem roundHalfEven_of_hi {q : ℚ} {k : ℤ} (h1 : (k : ℚ) + 1/2 < q) (h2 : q < (k : ℚ) + 1) :
    roundHalfEven q = k + 1 := by
  have hf : ⌊q⌋ = k := Int.floor_eq_iff.mpr ⟨by linarith, by linarith⟩
  rw [roundHalfEven, hf, if_neg (by linarith), if_pos (by linarith)]

theorem roundHalfEven_intCast (k : ℤ) : roundHalfEven (k : ℚ) = k := by
  exact roundHalfEven_of_lo (le_refl _) (by linarith)

theorem roundHalfEven_one : roundHalfEven (1 : ℚ) = 1 := by
  simpa using roundHalfEven_intCast 1

theorem roundHalfEven_dist (q : ℚ) : |q - (roundHalfEven q : ℚ)| ≤ 1/2 := by
  have h0 : (⌊q⌋ : ℚ) ≤ q := Int.floor_le q
  have h1 : q < (⌊q⌋ : ℚ) + 1 := Int.lt_floor_add_one q
  rw [roundHalfEven]
  split
  · rw [abs_of_nonneg (by linarith)]; linarith
  · rename_i hnlt
    push_cast
    split
    · rw [abs_of_nonpos (by linarith)]; linarith
    · split
      · rw [abs_of_nonneg (by linarith)]; linarith
      · rw [abs_of_nonpos (by linarith)]; linarith

theorem roundHalfUp_dist (q : ℚ) : |q - (roundHalfUp q : ℚ)| ≤ 1/2 := by
  rw [roundHalfUp]
  split
  · have h0 : (⌊q + 1/2⌋ : ℚ) ≤ q + 1/2 := Int.floor_le _
    have h1 : q + 1/2 < (⌊q + 1/2⌋ : ℚ) + 1 := Int.lt_floor_add_one _
    rw [abs_le]; constructor <;> linarith
  · have h0 : (⌊-q + 1/2⌋ : ℚ) ≤ -q + 1/2 := Int.floor_le _
    have h1 : -q + 1/2 < (⌊-q + 1/2⌋ : ℚ) + 1 := Int.lt_floor_add_one _
    push_cast
    rw [abs_le]; constructor <;> linarith

theorem nearest_multiple_of_dist {q : ℚ} {k : ℤ} (h : |q - (k : ℚ)| ≤ 1/2) (j : ℤ) :
    |q - (k : ℚ)| ≤ |q - (j : ℚ)| := by
  rcases eq_or_ne j k with rfl | hne
  · exact le_refl _
  · have hone : (1 : ℚ) ≤ |(k : ℚ) - (j : ℚ)| := by
      rw [show ((k : ℚ) - j) = ((k - j : ℤ) : ℚ) by push_cast; ring, ← Int.cast_abs]
      exact_mod_cast Int.one_le_abs (sub_ne_zero.mpr (fun hkj => hne hkj.symm))
    have h2 : |(k : ℚ) - (j : ℚ)| ≤ |q - (k : ℚ)| + |q - (j : ℚ)| := by
      calc |(k : ℚ) - (j : ℚ)| = |((k : ℚ) - q) + (q - j)| := by ring_nf
        _ ≤ |(k : ℚ) - q| + |q - (j : ℚ)| := abs_add _ _
        _ = |q - (k : ℚ)| + |q - (j : ℚ)| := by rw [abs_sub_comm]
    linarith

theorem compute_order_qty_example : compute_order_qty (32/100) 20 = 2/100 := by
  have hq : (32 : ℚ)/100/20 = 2/125 := by norm_num
  have hsteps : roundHalfEven ((2 : ℚ)/125 / (1/100)) = 2 := by
    have : ((2 : ℚ)/125 / (1/100)) = 8/5 := by norm_num
    rw [this]
    simpa using roundHalfEven_of_hi (k := 1) (by norm_num) (by norm_num)
  simp only [compute_order_qty, MIN_ORDER_QTY, hq]
  rw [if_neg (by norm_num), if_neg (by norm_num), hsteps, roundTo2]
  norm_num
  rw [show (2 : ℚ) = ((2 : ℤ) : ℚ) by norm_num, roundHalfEven_intCast]
  norm_num

/-- C7: compute_order_qty returns 0 when risk or price is zero; returns the
minimum increment 0.01 whenever the raw quotient is below it; otherwise
returns the quotient rounded half-to-even to the nearest multiple of 0.01
(the final 2-decimal rounding being the identity on such multiples); and in
particular compute_order_qty 0.32 20 = 0.02. -/
theorem compute_order_qty_spec (risk price : ℚ) :
    (risk = 0 ∨ price = 0 → compute_order_qty risk price = 0) ∧
    (risk ≠ 0 → price ≠ 0 → risk / price < 1/100 →
      compute_order_qty risk price = 1/100) ∧
    (risk ≠ 0 → price ≠ 0 → 1/100 ≤ risk / price →
      compute_order_qty risk price = (roundHalfEven (100 * (risk / price)) : ℚ) / 100 ∧
      (∀ j : ℤ, |risk / price - compute_order_qty risk price| ≤
        |risk / price - (j : ℚ) * (1/100)|)) ∧
    compute_order_qty (32/100) 20 = 2/100 := by
  refine ⟨?_, ?_, ?_, compute_order_qty_example⟩
  · intro h
    simp [compute_order_qty, h]
  · intro hr hp hlt
    have hor : ¬ (risk = 0 ∨ price = 0) := by tauto
    simp only [compute_order_qty, MIN_ORDER_QTY, if_neg hor, if_pos hlt]
    rw [div_self (by norm_num), roundHalfEven_one, roundTo2]
    rw [show ((1 : ℤ) : ℚ) * (1/100) * 100 = ((1 : ℤ) : ℚ) by norm_num, roundHalfEven_intCast]
    norm_num
  · intro hr hp hge
    have hor : ¬ (risk = 0 ∨ price = 0) := by tauto
    have hnlt : ¬ (risk / price < 1/100) := not_lt.mpr hge
    have hq : risk / price / (1/100) = 100 * (risk / price) := by ring
    have heq : compute_order_qty risk price =
        (roundHalfEven (100 * (risk / price)) : ℚ) / 100 := by
      simp only [compute_order_qty, MIN_ORDER_QTY, if_neg hor, if_neg hnlt, hq, roundTo2]
      rw [show (roundHalfEven (100 * (risk / price)) : ℚ) * (1/100) * 100 =
        ((roundHalfEven (100 * (risk / price)) : ℤ) : ℚ) by ring,
        roundHalfEven_intCast]
    refine ⟨heq, fun j => ?_⟩
    rw [heq]
    set m := roundHalfEven (100 * (risk / price)) with hm
    have hd : |100 * (risk / price) - (m : ℚ)| ≤ 1/2 := roundHalfEven_dist _
    have hnear := nearest_multiple_of_dist hd j
    have e1 : risk / price - (m : ℚ) / 100 = (100 * (risk / price) - (m : ℚ)) / 100 := by
      ring
    have e2 : risk / price - (j : ℚ) * (1/100) = (100 * (risk / price) - (j : ℚ)) / 100 := by
      ring
    rw [e1, e2, abs_div, abs_div]
    have h100 : |(100 : ℚ)| = 100 := by norm_num
    rw [h100]
    linarith

/-- C7 witness at a concrete input with nonzero risk and price. -/
theorem compute_order_qty_spec_witness :
    compute_order_qty (32/100) 20 = 2/100 :=
  (compute_order_qty_spec (32/100) 20).2.2.2

/-- C8: round_to_tick raises a hard error when the tick size is missing or
zero; otherwise it returns the multiple of the tick nearest to the price,
and on nonnegative prices a tie (fractional part exactly one half of a
positive tick) is resolved upward, as ROUND_HALF_UP does on exact decimals. -/
theorem round_to_tick_spec (price : ℚ) :
    (round_to_tick price none = .error "Tick size is zero or missing" ∧
     round_to_tick price (some 0) = .error "Tick size is zero or missing") ∧
    (∀ tick : ℚ, tick ≠ 0 → ∃ k : ℤ,
      round_to_tick price (some tick) = .ok ((k : ℚ) * tick) ∧
      ∀ j : ℤ, |price - (k : ℚ) * tick| ≤ |price - (j : ℚ) * tick|) ∧
    (∀ tick : ℚ, 0 < tick → 0 ≤ price →
      price / tick - (⌊price / tick⌋ : ℚ) = 1/2 →
      round_to_tick price (some tick) = .ok (((⌊price / tick⌋ + 1 : ℤ) : ℚ) * tick)) := by
  refine ⟨⟨by simp [round_to_tick, get_tick_size], by simp [round_to_tick, get_tick_size]⟩,
    ?_, ?_⟩
  · intro tick htick
    refine ⟨roundHalfUp (price / tick), ?_, ?_⟩
    · simp [round_to_tick, get_tick_size, htick]
    · intro j
      have hd : |price / tick - (roundHalfUp (price / tick) : ℚ)| ≤ 1/2 :=
        roundHalfUp_dist _
      have hnear := nearest_multiple_of_dist hd j
      have hfact : ∀ k : ℤ, price - (k : ℚ) * tick = (price / tick - (k : ℚ)) * tick := by
        intro k; field_simp; ring
      rw [hfact, hfact, abs_mul, abs_mul]
      exact mul_le_mul_of_nonneg_right hnear (abs_nonneg _)
  · intro tick htick hpnn htie
    have hq : 0 ≤ price / tick := div_nonneg hpnn (le_of_lt htick)
    have hru : roundHalfUp (price / tick) = ⌊price / tick⌋ + 1 := by
      rw [roundHalfUp, if_pos hq]
      have : price / tick + 1/2 = (⌊price / tick⌋ : ℚ) + 1 := by linarith
      rw [this]
      exact_mod_cast Int.floor_intCast (α := ℚ) (⌊price / tick⌋ + 1)
    simp [round_to_tick, get_tick_size, ne_of_gt htick, hru]

/-- Execution record as used by the fill-wait and exit logic: only the fields
the embedded code reads. -/
structure ExecRec where
  side : String
  execPrice : Option ℚ
deriving DecidableEq

/-- One iteration of the polling loop of wait_for_order_fill: the execution
list returned by the first fetch, the order status from the realtime detail
(empty string when no detail row exists), and the execution list returned by
the second fetch that the code performs when the status is Filled or
PartiallyFilled. -/
structure Poll where
  trades1 : List ExecRec
  status : String
  trades2 : List ExecRec

/-- Embedding of BybitOptionsTrader.wait_for_order_fill.  Real time is
abstracted into the finite sequence of polling iterations that the timeout
and poll interval allow; each iteration observes the data of one Poll. -/
def wait_for_order_fill : List Poll → List ExecRec
  | [] => []
  | p :: ps =>
    if ¬ p.trades1.isEmpty then p.trades1
    else if (p.status = "Filled" ∨ p.status = "PartiallyFilled") ∧ ¬ p.trades2.isEmpty then
      p.trades2
    else wait_for_order_fill ps

/-- Execution-record lists observed during one polling iteration, in the
order the code fetches them. -/
def pollObservations (p : Poll) : List (List ExecRec) :=
  if p.status = "Filled" ∨ p.status = "PartiallyFilled" then [p.trades1, p.trades2]
  else [p.trades1]

/-- All execution-record lists observed while polling, in order. -/
def observations (ps : List Poll) : List (List ExecRec) :=
  (ps.map pollObservations).flatten

/-- First non-empty list among a sequence of observed lists, or the empty
list when every observation is empty. -/
def firstNonempty (ls : List (List ExecRec)) : List ExecRec :=
  (ls.filter (fun l => !l.isEmpty)).headD []

theorem firstNonempty_append (A B : List (List ExecRec)) :
    firstNonempty (A ++ B) =
      if (A.filter (fun l => !l.isEmpty)).isEmpty then firstNonempty B
      else firstNonempty A := by
  rw [firstNonempty, List.filter_append]
  cases h : A.filter (fun l => !l.isEmpty) with
  | nil => simp [firstNonempty, h]
  | cons x xs => simp [firstNonempty, h]

theorem observations_append (ps qs : List Poll) :
    observations (ps ++ qs) = observations ps ++ observations qs := by
  simp [observations]

theorem wait_eq_firstNonempty (ps : List Poll) :
    wait_for_order_fill ps = firstNonempty (observations ps) := by
  induction ps with
  | nil => rfl
  | cons p ps ih =>
    have hobs : observations (p :: ps) = pollObservations p ++ observations ps := by
      simp [observations]
    rw [hobs, firstNonempty_append]
    simp only [wait_for_order_fill]
    by_cases h1 : p.trades1.isEmpty
    · rw [if_neg (by simp [h1])]
      by_cases h2 : (p.status = "Filled" ∨ p.status = "PartiallyFilled")
      · by_cases h3 : p.trades2.isEmpty
        · rw [if_neg (by simp [h3])]
          have hfil : ((pollObservations p).filter (fun l => !l.isEmpty)) = [] := by
            simp [pollObservations, h2, List.filter, h1, h3]
          rw [if_pos (by simp [hfil])]
          exact ih
        · rw [if_pos ⟨h2, by simp [h3]⟩]
          have hfil : ((pollObservations p).filter (fun l => !l.isEmpty)) = [p.trades2] := by
            simp [pollObservations, h2, List.filter, h1, h3]
          rw [if_neg (by simp [hfil]), firstNonempty, hfil]
          rfl
      · rw [if_neg (by rintro ⟨hst, -⟩; exact h2 hst)]
        have hfil : ((pollObservations p).filter (fun l => !l.isEmpty)) = [] := by
          simp [pollObservations, h2, List.filter, h1]
        rw [if_pos (by simp [hfil])]
        exact ih
    · rw [if_pos (by simp [h1])]
      have hfil : ∃ rest, ((pollObservations p).filter (fun l => !l.isEmpty)) =
          p.trades1 :: rest := by
        by_cases h2 : (p.status = "Filled" ∨ p.status = "PartiallyFilled")
        · simp only [pollObservations, if_pos h2, List.filter]
          by_cases h3 : p.trades2.isEmpty <;> simp [h1, h3]
        · simp only [pollObservations, if_neg h2, List.filter]
          simp [h1]
      obtain ⟨rest, hrest⟩ := hfil
      rw [if_neg (by simp [hrest]), firstNonempty, hrest]
      rfl

/-- C2: wait_for_order_fill returns the first non-empty execution list it
observes while polling, the empty list when every poll up to the timeout
comes back empty, and once a non-empty observation exists the remaining
polling budget is irrelevant (it returns without waiting out the timeout). -/
theorem wait_for_order_fill_spec (ps : List Poll) :
    wait_for_order_fill ps = firstNonempty (observations ps) ∧
    ((∀ l ∈ observations ps, l = []) → wait_for_order_fill ps = []) ∧
    (∀ qs : List Poll, (∃ l ∈ observations ps, l ≠ []) →
      wait_for_order_fill (ps ++ qs) = wait_for_order_fill ps) := by
  refine ⟨wait_eq_firstNonempty ps, ?_, ?_⟩
  · intro hall
    rw [wait_eq_firstNonempty ps, firstNonempty]
    have : (observations ps).filter (fun l => !l.isEmpty) = [] := by
      rw [List.filter_eq_nil_iff]
      intro l hl
      simp [hall l hl]
    rw [this]; rfl
  · intro qs hex
    rw [wait_eq_firstNonempty, wait_eq_firstNonempty, observations_append,
      firstNonempty_append]
    rw [if_neg ?_]
    obtain ⟨l, hl, hne⟩ := hex
    have : l ∈ (observations ps).filter (fun l => !l.isEmpty) := by
      rw [List.mem_filter]
      exact ⟨hl, by simp [hne]⟩
    intro hemp
    rw [List.isEmpty_iff] at hemp
    rw [hemp] at this
    exact absurd this (List.not_mem_nil l)

/-- C2 witness: a poll sequence whose second iteration observes a fill. -/
theorem wait_for_order_fill_spec_witness :
    wait_for_order_fill
        [⟨[], "New", []⟩, ⟨[⟨"Buy", some 1⟩], "New", []⟩, ⟨[], "New", []⟩] =
      [⟨"Buy", some 1⟩] ∧
    wait_for_order_fill
        ([⟨[⟨"Buy", some 1⟩], "New", []⟩] ++ [⟨[], "New", []⟩]) =
      wait_for_order_fill [⟨[⟨"Buy", some 1⟩], "New", []⟩] := by
  constructor
  · rw [(wait_for_order_fill_spec _).1]
    rfl
  · exact (wait_for_order_fill_spec [⟨[⟨"Buy", some 1⟩], "New", []⟩]).2.2
      [⟨[], "New", []⟩] ⟨[⟨"Buy", some 1⟩], by simp [observations, pollObservations], by simp⟩

/-- ASCII lowercase of one character, as Python str.lower acts on the ASCII
side strings this code compares. -/
def lowerChar (c : Char) : Char :=
  if 'A' ≤ c ∧ c ≤ 'Z' then Char.ofNat (c.toNat + 32) else c

/-- ASCII lowercase of a string. -/
def strLower (s : String) : String := ⟨s.data.map lowerChar⟩

/-- Open option position as read by set_profit_targets: the absolute size,
side string, symbol (none models a falsy symbol field) and average entry
price (0 models a falsy avgPrice). -/
structure Position where
  size : ℚ
  side : String
  symbol : Option String
  avgPrice : ℚ

/-- Order request submitted through place_order. -/
structure OrderReq where
  symbol : String
  side : String
  qty : ℚ
  price : ℚ
  tif : String
  reduceOnly : Bool
deriving DecidableEq

/-- A position for which set_profit_targets attempts a placement: positive
size, long side, a truthy symbol and a truthy average price. -/
def eligiblePosition (p : Position) : Bool :=
  !(|p.size| ≤ 0 : Bool) && (strLower p.side == "buy") && p.symbol.isSome &&
    !(p.avgPrice == 0)

/-- Per-symbol exchange data used by place_order: the instrument's tickSize
field (the same Option model as get_tick_size above, covering the missing
field and the missing instrument record) and the exchange's response to one
order-creation request, where an error is the ApiException raised for a
non-zero result code. -/
structure ExchangeEnv where
  tick : String → Option ℚ
  api : OrderReq → Except String Unit

/-- Embedding of BybitOptionsTrader.place_order on the limit-price path that
set_profit_targets always takes: the price is first rounded to tick, whose
ValueError (zero or missing tick) or RuntimeError (no instrument data)
surfaces as the outer error; otherwise the rounded request is submitted and
paired with the exchange outcome, whose error is the ApiException a caller
may catch. -/
def place_order (env : ExchangeEnv) (symbol side : String) (qty price : ℚ)
    (tif : String) (is_exit : Bool) :
    Except String (OrderReq × Except String Unit) :=
  match round_to_tick price (env.tick symbol) with
  | .error e => .error e
  | .ok rounded =>
    let req : OrderReq := ⟨symbol, side, qty, rounded, tif, is_exit⟩
    .ok (req, env.api req)

/-- The reduce-only exit request set_profit_targets submits for a position:
the tick-rounded triple (for multiplier 2) of the average entry price, with
0 standing in for the price when the rounding raises, a case excluded
wherever this definition is used. -/
def submittedReq (env : ExchangeEnv) (multiplier : ℚ) (p : Position) : OrderReq :=
  ⟨p.symbol.getD "", "Sell", |p.size|,
    (round_to_tick (p.avgPrice * (multiplier + 1))
      (env.tick (p.symbol.getD ""))).toOption.getD 0,
    "GTC", true⟩

/-- Embedding of optionstrader.set_profit_targets.  The outer error is an
exception the loop does not catch (the ValueError or RuntimeError that
place_order's tick rounding raises), which aborts the whole batch; the ok
value is the ordered trace of submitted requests with their outcome, where
an inner error is the ApiException the loop catches, logs and skips.
Printing and logging are elided. -/
def set_profit_targets (env : ExchangeEnv) (multiplier : ℚ := 2) :
    List Position → Except String (List (OrderReq × Except String Unit))
  | [] => .ok []
  | p :: ps =>
    if |p.size| ≤ 0 then set_profit_targets env multiplier ps
    else if strLower p.side ≠ "buy" then set_profit_targets env multiplier ps
    else
      match p.symbol with
      | none => set_profit_targets env multiplier ps
      | some sym =>
        if p.avgPrice = 0 then set_profit_targets env multiplier ps
        else
          match place_order env sym "Sell" (|p.size|)
              (p.avgPrice * (multiplier + 1)) "GTC" true with
          | .error e => .error e
          | .ok att =>
            match set_profit_targets env multiplier ps with
            | .error e2 => .error e2
            | .ok rest => .ok (att :: rest)

theorem round_to_tick_target_three :
    round_to_tick (3 : ℚ) (some 1) = .ok 3 := by
  have h1 : (3 : ℚ) / 1 = 3 := by norm_num
  have h2 : roundHalfUp (3 : ℚ) = 3 := by
    rw [roundHalfUp, if_pos (by norm_num)]
    rw [show (3 : ℚ) + 1/2 = 7/2 by norm_num, Int.floor_eq_iff]
    norm_num
  rw [round_to_tick]
  simp only [get_tick_size, Option.getD_some]
  rw [if_neg (by norm_num), h1, h2]
  rw [show ((3 : ℤ) : ℚ) * 1 = 3 by norm_num]

/-- C10 counterexample: a long position whose instrument reports no tick
size makes the always-executed tick rounding inside place_order raise an
exception that set_profit_targets does not catch, aborting the batch before
the following position — which on its own would have been placed — is ever
attempted. -/
theorem set_profit_targets_claim_counterexample :
    set_profit_targets
        ⟨fun s => if s = "BTC-BAD" then none else some 1, fun _ => .ok ()⟩ 2
        [⟨1, "Buy", some "BTC-BAD", 1⟩, ⟨1, "Buy", some "BTC-OK", 1⟩] =
      .error "Tick size is zero or missing" ∧
    set_profit_targets
        ⟨fun s => if s = "BTC-BAD" then none else some 1, fun _ => .ok ()⟩ 2
        [⟨1, "Buy", some "BTC-OK", 1⟩] =
      .ok [(⟨"BTC-OK", "Sell", 1, 3, "GTC", true⟩, .ok ())] := by
  have hsz : ¬ (|(1 : ℚ)| ≤ 0) := by norm_num
  have hside : ¬ (strLower "Buy" ≠ "buy") := by decide
  have hap : ¬ ((1 : ℚ) = 0) := by norm_num
  have h3 : (1 : ℚ) * (2 + 1) = 3 := by norm_num
  constructor
  · simp only [set_profit_targets, place_order]
    rw [if_neg hsz, if_neg hside, if_neg hap]
    simp [round_to_tick, get_tick_size]
  · simp only [set_profit_targets, place_order]
    rw [if_neg hsz, if_neg hside, if_neg hap, h3]
    simp [round_to_tick_target_three, abs_one]

/-- The trace characterization behind the amended C10: when no eligible
position's tick lookup fails, the loop attempts exactly the eligible
positions in order, submitting the tick-rounded request and recording the
exchange outcome pointwise. -/
theorem set_profit_targets_trace (env : ExchangeEnv) (multiplier : ℚ) :
    ∀ ps : List Position,
      (∀ p ∈ ps, eligiblePosition p = true →
        get_tick_size (env.tick (p.symbol.getD "")) ≠ 0) →
      set_profit_targets env multiplier ps =
        .ok ((ps.filter eligiblePosition).map
          (fun p => (submittedReq env multiplier p,
            env.api (submittedReq env multiplier p)))) := by
  intro ps
  induction ps with
  | nil => intro h; rfl
  | cons p ps ih =>
    intro h
    have htail := fun q hq => h q (List.mem_cons_of_mem p hq)
    simp only [set_profit_targets]
    by_cases hsz : |p.size| ≤ 0
    · rw [if_pos hsz, ih htail]
      have he : eligiblePosition p = false := by
        simp [eligiblePosition, hsz]
      rw [List.filter_cons, he]
      simp
    · rw [if_neg hsz]
      by_cases hside : strLower p.side ≠ "buy"
      · rw [if_pos hside, ih htail]
        have he : eligiblePosition p = false := by
          simp only [eligiblePosition, Bool.and_eq_false_iff]
          left; left; right
          simpa [beq_iff_eq] using hside
        rw [List.filter_cons, he]
        simp
      · rw [if_neg hside]
        push_neg at hside
        cases hsym : p.symbol with
        | none =>
          have he : eligiblePosition p = false := by
            simp [eligiblePosition, hsym]
          rw [ih htail, List.filter_cons, he]
          simp
        | some sym =>
          dsimp only
          by_cases hap : p.avgPrice = 0
          · rw [if_pos hap]
            have he : eligiblePosition p = false := by
              simp [eligiblePosition, hap]
            rw [ih htail, List.filter_cons, he]
            simp
          · rw [if_neg hap]
            have he : eligiblePosition p = true := by
              simp [eligiblePosition, hsz, hside, hsym, hap]
            have hgd : p.symbol.getD "" = sym := by
              rw [hsym]
              rfl
            have htick : get_tick_size (env.tick sym) ≠ 0 := by
              have := h p (List.mem_cons_self p ps) he
              rwa [hgd] at this
            have hrt : round_to_tick (p.avgPrice * (multiplier + 1)) (env.tick sym) =
                .ok ((roundHalfUp (p.avgPrice * (multiplier + 1) /
                    get_tick_size (env.tick sym)) : ℚ) *
                  get_tick_size (env.tick sym)) := by
              simp only [round_to_tick]
              rw [if_neg htick]
            have hreq : submittedReq env multiplier p =
                ⟨sym, "Sell", |p.size|,
                  (roundHalfUp (p.avgPrice * (multiplier + 1) /
                    get_tick_size (env.tick sym)) : ℚ) *
                  get_tick_size (env.tick sym), "GTC", true⟩ := by
              rw [submittedReq, hgd, hrt]
              rfl
            simp only [place_order, hrt]
            rw [ih htail, List.filter_cons, he]
            simp only [if_true, List.map_cons]
            rw [hreq]
  
/-- C10 amended: set_profit_targets never places an order for a Sell
position; when no eligible position's tick-size lookup degenerates, the
trace of submitted requests is exactly the eligible positions mapped to
their tick-rounded reduce-only Sell orders, with each exchange rejection
(ApiException) caught and recorded while the batch continues, and the set
of attempted orders independent of the exchange outcomes; a failing tick
lookup, by contrast, raises an uncaught exception that aborts the batch
(the counterexample). -/
theorem set_profit_targets_amended (env : ExchangeEnv) (multiplier : ℚ)
    (positions : List Position) :
    ((∀ p ∈ positions, eligiblePosition p = true →
        get_tick_size (env.tick (p.symbol.getD "")) ≠ 0) →
      set_profit_targets env multiplier positions =
        .ok ((positions.filter eligiblePosition).map
          (fun p => (submittedReq env multiplier p,
            env.api (submittedReq env multiplier p))))) ∧
    (∀ p ∈ positions, strLower p.side = "sell" → eligiblePosition p = false) ∧
    (∀ env2 : ExchangeEnv, env2.tick = env.tick →
      (∀ p ∈ positions, eligiblePosition p = true →
        get_tick_size (env.tick (p.symbol.getD "")) ≠ 0) →
      (set_profit_targets env multiplier positions).map (List.map Prod.fst) =
        (set_profit_targets env2 multiplier positions).map (List.map Prod.fst)) := by
  refine ⟨set_profit_targets_trace env multiplier positions, ?_, ?_⟩
  · intro p hp hsell
    simp only [eligiblePosition, hsell]
    have : (("sell" : String) == "buy") = false := by decide
    simp [this]
  · intro env2 h2tick htick
    have htick2 : ∀ p ∈ positions, eligiblePosition p = true →
        get_tick_size (env2.tick (p.symbol.getD "")) ≠ 0 := by
      intro p hp he
      rw [h2tick]
      exact htick p hp he
    rw [set_profit_targets_trace env multiplier positions htick,
      set_profit_targets_trace env2 multiplier positions htick2]
    have hsub : ∀ p : Position, submittedReq env2 multiplier p =
        submittedReq env multiplier p := by
      intro p
      rw [submittedReq, submittedReq, h2tick]
    simp only [Except.map, List.map_map]
    congr 1
    apply List.map_congr_left
    intro p hp
    simp [Function.comp, hsub p]

/-- C10 witness: a batch of one short, one exchange-rejected long and one
good long position (all with tick size 1) attempts exactly the two longs at
the tick-rounded price 3 and keeps the trailing success after the caught
rejection. -/
theorem set_profit_targets_amended_witness :
    set_profit_targets
        ⟨fun _ => some 1,
         fun r => if r.symbol = "BTC-FAIL" then .error "boom" else .ok ()⟩ 2
        [⟨1, "Sell", some "BTC-SHORT", 1⟩,
         ⟨1, "Buy", some "BTC-FAIL", 1⟩,
         ⟨1, "Buy", some "BTC-OK", 1⟩] =
      .ok [(⟨"BTC-FAIL", "Sell", 1, 3, "GTC", true⟩, .error "boom"),
           (⟨"BTC-OK", "Sell", 1, 3, "GTC", true⟩, .ok ())] := by
  rw [(set_profit_targets_amended
      ⟨fun _ => some 1,
       fun r => if r.symbol = "BTC-FAIL" then .error "boom" else .ok ()⟩ 2
      [⟨1, "Sell", some "BTC-SHORT", 1⟩,
       ⟨1, "Buy", some "BTC-FAIL", 1⟩,
       ⟨1, "Buy", some "BTC-OK", 1⟩]).1
    (by intro p hp he; norm_num [get_tick_size])]
  have h1 : eligiblePosition ⟨1, "Sell", some "BTC-SHORT", 1⟩ = false := by
    have : ((strLower "Sell") == "buy") = false := by decide
    simp [eligiblePosition, this]
  have h2 : eligiblePosition ⟨1, "Buy", some "BTC-FAIL", 1⟩ = true := by
    have hb : ((strLower "Buy") == "buy") = true := by decide
    simp [eligiblePosition, hb]
  have h3 : eligiblePosition ⟨1, "Buy", some "BTC-OK", 1⟩ = true := by
    have hb : ((strLower "Buy") == "buy") = true := by decide
    simp [eligiblePosition, hb]
  rw [List.filter_cons, List.filter_cons, List.filter_cons, h1, h2, h3]
  have hfail : submittedReq
      ⟨fun _ => some 1,
       fun r => if r.symbol = "BTC-FAIL" then .error "boom" else .ok ()⟩ 2
      ⟨1, "Buy", some "BTC-FAIL", 1⟩ =
      ⟨"BTC-FAIL", "Sell", 1, 3, "GTC", true⟩ := by
    rw [submittedReq]
    dsimp only
    rw [show (1 : ℚ) * (2 + 1) = 3 from by norm_num, round_to_tick_target_three]
    simp [Except.toOption]
  have hok2 : submittedReq
      ⟨fun _ => some 1,
       fun r => if r.symbol = "BTC-FAIL" then .error "boom" else .ok ()⟩ 2
      ⟨1, "Buy", some "BTC-OK", 1⟩ =
      ⟨"BTC-OK", "Sell", 1, 3, "GTC", true⟩ := by
    rw [submittedReq]
    dsimp only
    rw [show (1 : ℚ) * (2 + 1) = 3 from by norm_num, round_to_tick_target_three]
    simp [Except.toOption]
  have hne : ¬ ("BTC-OK" : String) = "BTC-FAIL" := by decide
  simp [hfail, hok2, hne]

/-- Execution / delivery record as consumed by _write_trade_history_csv:
an optional field is some v when the Python dict holds a parseable,
non-empty value for it. -/
structure TradeRec where
  execTime : ℤ
  execFee : Option ℚ
  closedPnl : Option ℚ
  realisedPnl : Option ℚ
  execPnl : Option ℚ
  execValue : Option ℚ
  side : String
deriving DecidableEq

/-- Net fee of a row: the raw execFee, 0 on a missing or unparseable value. -/
def netFee (t : TradeRec) : ℚ := t.execFee.getD 0

/-- Net profit and loss of a row: first parseable of closedPnl, realisedPnl,
execPnl; otherwise derived from the execution value, the side sign and the
fee. -/
def netPnl (t : TradeRec) : ℚ :=
  match t.closedPnl with
  | some v => v
  | none =>
    match t.realisedPnl with
    | some v => v
    | none =>
      match t.execPnl with
      | some v => v
      | none =>
        let value := t.execValue.getD 0
        let sign : ℚ := if strLower t.side = "sell" then 1 else -1
        sign * value - netFee t

/-- Chronological order on trade records, the sort key of the CSV writer. -/
def timeLE (a b : TradeRec) : Prop := a.execTime ≤ b.execTime

instance : DecidableRel timeLE := fun a b =>
  inferInstanceAs (Decidable (a.execTime ≤ b.execTime))

instance : IsTotal TradeRec timeLE := ⟨fun a b => le_total a.execTime b.execTime⟩

instance : IsTrans TradeRec timeLE := ⟨fun _ _ _ h1 h2 => le_trans h1 h2⟩

/-- One CSV output row: the source record with its derived columns. -/
structure OutRow where
  src : TradeRec
  netFee : ℚ
  netPnl : ℚ
  balance : ℚ
deriving DecidableEq

/-- Forward walk of the balance column: each row adds its net P&L to the
running balance. -/
def attachBalances (running : ℚ) : List TradeRec → List OutRow
  | [] => []
  | t :: ts => ⟨t, netFee t, netPnl t, running + netPnl t⟩ ::
      attachBalances (running + netPnl t) ts

/-- Embedding of the row computation of optionstrader._write_trade_history_csv:
sort chronologically, derive fees and P&L, anchor the implied starting balance
to the observed final balance, then walk forward.  File I/O, header layout and
the localTime column are elided. -/
def _write_trade_history_csv (trades : List TradeRec) (final_balance : ℚ) :
    List OutRow :=
  let trades_sorted := List.insertionSort timeLE trades
  let starting_balance := final_balance - (trades_sorted.map netPnl).sum
  attachBalances starting_balance trades_sorted

theorem attachBalances_map_src (r : ℚ) (ts : List TradeRec) :
    (attachBalances r ts).map OutRow.src = ts := by
  induction ts generalizing r with
  | nil => rfl
  | cons t ts ih => simp [attachBalances, ih]

theorem attachBalances_map_netPnl (r : ℚ) (ts : List TradeRec) :
    (attachBalances r ts).map OutRow.netPnl = ts.map netPnl := by
  induction ts generalizing r with
  | nil => rfl
  | cons t ts ih => simp [attachBalances, ih]

theorem attachBalances_chain (r : ℚ) (ts : List TradeRec) :
    List.Chain' (fun a b => b.balance = a.balance + b.netPnl)
      (attachBalances r ts) := by
  induction ts generalizing r with
  | nil => exact List.chain'_nil
  | cons t ts ih =>
    rw [attachBalances, List.chain'_cons']
    refine ⟨?_, ih _⟩
    intro y hy
    cases ts with
    | nil => simp [attachBalances] at hy
    | cons u ts' =>
      simp only [attachBalances, List.head?_cons, Option.mem_def,
        Option.some.injEq] at hy
      subst hy
      rfl

theorem attachBalances_lastD (r d : ℚ) (ts : List TradeRec) (h : ts ≠ []) :
    ((attachBalances r ts).map OutRow.balance).getLastD d =
      r + (ts.map netPnl).sum := by
  induction ts generalizing r d with
  | nil => exact absurd rfl h
  | cons t ts ih =>
    cases ts with
    | nil => simp [attachBalances]
    | cons u ts2 =>
      rw [attachBalances, List.map_cons, List.getLastD_cons,
        ih _ _ (List.cons_ne_nil u ts2)]
      simp only [List.map_cons, List.sum_cons]
      ring

/-- C5: the CSV writer emits the records sorted by execution time ascending;
the first balance is the implied start (final balance minus total P&L) plus
the first row's P&L, every later balance is the previous balance plus that
row's P&L, and the last balance equals the observed wallet balance exactly;
on the single execution with fee 0.1, reported P&L 0.2 and balance 100 it
yields netFee 0.1, netPnl 0.2 and balance 100. -/
theorem write_trade_history_csv_spec (trades : List TradeRec) (B : ℚ) :
    List.Sorted timeLE ((_write_trade_history_csv trades B).map OutRow.src) ∧
    (∀ r0 ∈ (_write_trade_history_csv trades B).head?,
      r0.balance =
        (B - (((_write_trade_history_csv trades B).map OutRow.netPnl).sum)) +
          r0.netPnl) ∧
    List.Chain' (fun a b => b.balance = a.balance + b.netPnl)
      (_write_trade_history_csv trades B) ∧
    (trades ≠ [] →
      ((_write_trade_history_csv trades B).map OutRow.balance).getLastD B = B) ∧
    _write_trade_history_csv
        [⟨1715000000000, some (1/10), some (2/10), none, none, none, "Buy"⟩] 100 =
      [⟨⟨1715000000000, some (1/10), some (2/10), none, none, none, "Buy"⟩,
        1/10, 2/10, 100⟩] := by
  refine ⟨?_, ?_, ?_, ?_, ?_⟩
  · rw [_write_trade_history_csv]
    rw [attachBalances_map_src]
    exact List.sorted_insertionSort timeLE trades
  · intro r0 hr0
    rw [_write_trade_history_csv] at hr0 ⊢
    rw [attachBalances_map_netPnl]
    cases hs : List.insertionSort timeLE trades with
    | nil => rw [hs] at hr0; simp [attachBalances] at hr0
    | cons t ts =>
      rw [hs] at hr0
      simp only [attachBalances, List.head?_cons, Option.mem_def,
        Option.some.injEq] at hr0
      subst hr0
      rfl
  · rw [_write_trade_history_csv]
    exact attachBalances_chain _ _
  · intro hne
    have hs : List.insertionSort timeLE trades ≠ [] := by
      intro h0
      have := List.perm_insertionSort timeLE trades
      rw [h0] at this
      exact hne (List.Perm.nil_eq this).symm
    rw [_write_trade_history_csv, attachBalances_lastD _ _ _ hs]
    ring
  · have hs : List.insertionSort timeLE
        [⟨1715000000000, some (1/10), some (2/10), none, none, none, "Buy"⟩] =
        [⟨1715000000000, some (1/10), some (2/10), none, none, none, "Buy"⟩] := rfl
    rw [_write_trade_history_csv, hs]
    simp only [attachBalances, List.map_cons, List.map_nil, List.sum_cons,
      List.sum_nil]
    have hpnl : netPnl ⟨1715000000000, some (1/10), some (2/10), none, none, none, "Buy"⟩ =
        2/10 := rfl
    have hfee : netFee ⟨1715000000000, some (1/10), some (2/10), none, none, none, "Buy"⟩ =
        1/10 := rfl
    rw [hpnl, hfee]
    norm_num

/-- C5 witness: the reconciliation invariants instantiated on the concrete
single-execution history with observed balance 100. -/
theorem write_trade_history_csv_spec_witness :
    ((_write_trade_history_csv
        [⟨1715000000000, some (1/10), some (2/10), none, none, none, "Buy"⟩] 100).map
      OutRow.balance).getLastD 100 = 100 :=
  (write_trade_history_csv_spec
    [⟨1715000000000, some (1/10), some (2/10), none, none, none, "Buy"⟩] 100).2.2.2.1
    (List.cons_ne_nil _ _)

/-- Realtime order detail fields read by place_and_log; a field is some v when
the corresponding entry is present and truthy in the detail row. -/
structure OrderDetail where
  avgPrice : Option ℚ
  price : Option ℚ

/-- Exchange data observed during one place_and_log call: the execution
records obtained by the bounded retry loop and the subsequent fill wait, the
first realtime order-detail row (none when the detail list is empty), and the
instrument's tick size. -/
structure FillEnv where
  trades : List ExecRec
  order : Option OrderDetail
  tick : ℚ

/-- Python float truthiness of an optional price argument: None and 0.0 are
falsy. -/
def truthyQ (p : Option ℚ) : Bool := !(p.getD 0 == 0)

/-- Exit side chosen by place_and_log: the opposite of the submitted side. -/
def exitSide (side : String) : String :=
  if strLower side = "buy" then "Sell" else "Buy"

/-- Entry-price precedence written from the specification: the execPrice of
the first execution whose side equals the submitted side, else the order
detail's avgPrice, else the order detail's price; the first non-missing
value wins. -/
def specDerivedEntry (side : String) (trades : List ExecRec)
    (order : Option OrderDetail) : Option ℚ :=
  match (trades.find? (fun t => strLower t.side == strLower side)).bind
      ExecRec.execPrice with
  | some v => some v
  | none =>
    match order.bind OrderDetail.avgPrice with
    | some v => some v
    | none => order.bind OrderDetail.price

/-- Source-side translation of the if/elif chain at the bottom of
place_and_log that infers the realized entry price when no limit price was
submitted. -/
def derivedEntryPrice (side : String) (trades : List ExecRec)
    (order : Option OrderDetail) : Option ℚ :=
  match (trades.find? (fun t => strLower t.side == strLower side)).bind
      ExecRec.execPrice with
  | some v => some v
  | none =>
    match order.bind OrderDetail.avgPrice with
    | some v => some v
    | none => order.bind OrderDetail.price

/-- Embedding of the exit leg of BybitOptionsTrader.place_and_log: after the
entry order and the fill wait, decide whether to place the reduce-only exit
order and at which price.  The returned value is the exit order submitted
(none when the code returns without one); entry placement, file logging and
sleeping are I/O elided into the environment. -/
def place_and_log (symbol side : String) (qty : ℚ) (entry_price : Option ℚ)
    (tif : String) (env : FillEnv) : Except String (Option OrderReq) :=
  if env.trades.isEmpty then .ok none
  else
    let ep? : Option ℚ :=
      if truthyQ entry_price then entry_price
      else derivedEntryPrice side env.trades env.order
    match ep? with
    | none => .ok none
    | some ep => do
      let target ← round_to_tick (ep * 3) (some env.tick)
      .ok (some ⟨symbol, exitSide side, qty, target, tif, true⟩)

/-- C1 counterexample: with a submitted (truthy) limit price of 1 and a
matching execution filled at 2, the code prices the exit from the submitted
price (tick-rounded 3), not from the claimed derived entry price (which
would give 6). -/
theorem place_and_log_claim_counterexample :
    place_and_log "BTC-7JUN25-100-C-USDT" "Buy" 1 (some 1) "GTC"
        ⟨[⟨"Buy", some 2⟩], none, 1⟩ =
      .ok (some ⟨"BTC-7JUN25-100-C-USDT", "Sell", 1, 3, "GTC", true⟩) ∧
    specDerivedEntry "Buy" [⟨"Buy", some 2⟩] none = some 2 ∧
    round_to_tick (2 * 3) (some 1) = .ok 6 ∧
    (3 : ℚ) ≠ 6 := by
  have hr3 : roundHalfUp ((1 : ℚ) * 3 / 1) = 3 := by
    rw [roundHalfUp, if_pos (by norm_num)]
    rw [show (1 : ℚ) * 3 / 1 + 1/2 = 7/2 by norm_num]
    rw [Int.floor_eq_iff]
    norm_num
  have hr6 : roundHalfUp ((2 : ℚ) * 3 / 1) = 6 := by
    rw [roundHalfUp, if_pos (by norm_num)]
    rw [show (2 : ℚ) * 3 / 1 + 1/2 = 13/2 by norm_num]
    rw [Int.floor_eq_iff]
    norm_num
  refine ⟨?_, rfl, ?_, by norm_num⟩
  · rw [place_and_log]
    rw [if_neg (by simp)]
    have htr : truthyQ (some 1) = true := by
      rw [truthyQ]
      norm_num
    simp only [htr, if_pos]
    rw [round_to_tick]
    simp only [get_tick_size, Option.getD_some]
    rw [if_neg (by norm_num), hr3]
    have : ((3 : ℤ) : ℚ) * 1 = 3 := by norm_num
    rw [this]
    rfl
  · rw [round_to_tick]
    simp only [get_tick_size, Option.getD_some]
    rw [if_neg (by norm_num), hr6]
    norm_num

/-- C1 amended: if the fill wait yields no executions, no exit order is
placed; when the submitted entry price is falsy the realized entry price is
derived by the claimed precedence (matching execution's execPrice, then
avgPrice, then price), with no exit order at all when every source is
missing; when a truthy entry price was submitted it is used directly; in the
two placing cases exactly one opposite-side reduce-only order is submitted at
the tick-rounded triple of that price with the same time-in-force. -/
theorem place_and_log_exit_amended (symbol side : String) (qty : ℚ)
    (entry_price : Option ℚ) (tif : String) (env : FillEnv)
    (htick : env.tick ≠ 0) :
    (env.trades = [] →
      place_and_log symbol side qty entry_price tif env = .ok none) ∧
    (env.trades ≠ [] → truthyQ entry_price = false →
      specDerivedEntry side env.trades env.order = none →
      place_and_log symbol side qty entry_price tif env = .ok none) ∧
    (env.trades ≠ [] → truthyQ entry_price = false →
      ∀ ep, specDerivedEntry side env.trades env.order = some ep →
      ∃ target, round_to_tick (ep * 3) (some env.tick) = .ok target ∧
        place_and_log symbol side qty entry_price tif env =
          .ok (some ⟨symbol, exitSide side, qty, target, tif, true⟩)) ∧
    (env.trades ≠ [] → ∀ ep, entry_price = some ep → ep ≠ 0 →
      ∃ target, round_to_tick (ep * 3) (some env.tick) = .ok target ∧
        place_and_log symbol side qty entry_price tif env =
          .ok (some ⟨symbol, exitSide side, qty, target, tif, true⟩)) := by
  have htgt : ∀ ep : ℚ, round_to_tick (ep * 3) (some env.tick) =
      .ok ((roundHalfUp (ep * 3 / env.tick) : ℚ) * env.tick) := by
    intro ep
    simp [round_to_tick, get_tick_size, htick]
  refine ⟨?_, ?_, ?_, ?_⟩
  · intro h
    simp [place_and_log, h]
  · intro hne htr hder
    have hemp : env.trades.isEmpty = false := by
      cases henv : env.trades with
      | nil => exact absurd henv hne
      | cons a l => rfl
    have hd : derivedEntryPrice side env.trades env.order = none := hder
    rw [place_and_log, if_neg (by simp [hemp])]
    simp only [htr, Bool.false_eq_true, if_false, hd]
  · intro hne htr ep hder
    have hemp : env.trades.isEmpty = false := by
      cases henv : env.trades with
      | nil => exact absurd henv hne
      | cons a l => rfl
    have hd : derivedEntryPrice side env.trades env.order = some ep := hder
    refine ⟨(roundHalfUp (ep * 3 / env.tick) : ℚ) * env.tick, htgt ep, ?_⟩
    rw [place_and_log, if_neg (by simp [hemp])]
    simp only [htr, Bool.false_eq_true, if_false, hd]
    rw [htgt ep]
    rfl
  · intro hne ep hep hep0
    have hemp : env.trades.isEmpty = false := by
      cases henv : env.trades with
      | nil => exact absurd henv hne
      | cons a l => rfl
    have htr : truthyQ (some ep) = true := by
      rw [truthyQ]
      simp [hep0]
    refine ⟨(roundHalfUp (ep * 3 / env.tick) : ℚ) * env.tick, htgt ep, ?_⟩
    rw [place_and_log, if_neg (by simp [hemp])]
    simp only [hep, htr, if_true]
    rw [htgt ep]
    rfl

/-- C1 witness: a market-style call (no limit price) whose fill executed at
price 2 places the reduce-only exit at 6. -/
theorem place_and_log_exit_amended_witness :
    ∃ target, round_to_tick (2 * 3) (some 1) = .ok target ∧
      place_and_log "BTC-7JUN25-100-C-USDT" "Buy" 1 none "GTC"
          ⟨[⟨"Buy", some 2⟩], none, 1⟩ =
        .ok (some ⟨"BTC-7JUN25-100-C-USDT", "Sell", 1, target, "GTC", true⟩) :=
  (place_and_log_exit_amended "BTC-7JUN25-100-C-USDT" "Buy" 1 none "GTC"
      ⟨[⟨"Buy", some 2⟩], none, 1⟩ (by norm_num)).2.2.1
    (by simp) (by rfl) 2 (by rfl)

/-- C8 witness: the hard-error case and the nearest-multiple case at a
concrete price and tick. -/
theorem round_to_tick_spec_witness :
    round_to_tick 1 none = .error "Tick size is zero or missing" ∧
    ∃ k : ℤ, round_to_tick (3/2) (some 1) = .ok ((k : ℚ) * 1) ∧
      ∀ j : ℤ, |(3/2 : ℚ) - (k : ℚ) * 1| ≤ |(3/2 : ℚ) - (j : ℚ) * 1| :=
  ⟨(round_to_tick_spec 1).1.1, (round_to_tick_spec (3/2)).2.1 1 (by norm_num)⟩

/-- ASCII uppercase of one character, as Python str.upper acts on the ASCII
data this code handles. -/
def upperChar (c : Char) : Char :=
  if 'a' ≤ c ∧ c ≤ 'z' then Char.ofNat (c.toNat - 32) else c

/-- ASCII uppercase of a string. -/
def strUpper (s : String) : String := ⟨s.data.map upperChar⟩

/-- Character codes: is this code an ASCII digit. -/
def isDigitCode (c : ℕ) : Bool := 48 ≤ c && c ≤ 57

/-- Numeric value of an ASCII digit code. -/
def codeVal (c : ℕ) : ℕ := c - 48

/-- Number denoted by a big-endian list of ASCII digit codes. -/
def natFromCodes (ds : List ℕ) : ℕ := Nat.ofDigits 10 ((ds.map codeVal).reverse)

/-- ASCII uppercase of a character code. -/
def upperCode (c : ℕ) : ℕ := if 97 ≤ c ∧ c ≤ 122 then c - 32 else c

/-- The twelve uppercase month abbreviations as ASCII code lists, JAN first. -/
def monthCodes : List (List ℕ) :=
  [[74, 65, 78], [70, 69, 66], [77, 65, 82], [65, 80, 82], [77, 65, 89],
   [74, 85, 78], [74, 85, 76], [65, 85, 71], [83, 69, 80], [79, 67, 84],
   [78, 79, 86], [68, 69, 67]]

/-- Gregorian leap-year rule, as datetime uses. -/
def leapYear (y : ℕ) : Bool := (y % 4 == 0 && y % 100 != 0) || (y % 400 == 0)

/-- Number of days in a month, as datetime validates. -/
def daysInMonth (m y : ℕ) : ℕ :=
  if m = 2 then (if leapYear y then 29 else 28)
  else if m = 4 ∨ m = 6 ∨ m = 9 ∨ m = 11 then 30 else 31

/-- Parse an expiry token such as 7JUN25 or 07JUN25 (as ASCII codes) the way
datetime.strptime with format day month-abbreviation two-digit-year does:
one or two day digits, a case-insensitive month abbreviation, a two-digit
year mapped to 2000-2068 / 1969-1999, and the day validated against the
month length. -/
def parseExpiryCodes (s : List ℕ) : Option (ℕ × ℕ × ℕ) :=
  let su := s.map upperCode
  let ds := su.takeWhile isDigitCode
  let rest := su.dropWhile isDigitCode
  if ds.length = 0 ∨ 2 < ds.length then none
  else
    let mon := rest.take 3
    let ys := rest.drop 3
    if ys.length ≠ 2 ∨ ¬ (ys.all isDigitCode = true) then none
    else
      match monthCodes.findIdx? (fun mm => mm == mon) with
      | none => none
      | some i =>
        let m := i + 1
        let d := natFromCodes ds
        let yy := natFromCodes ys
        let y := if yy ≤ 68 then 2000 + yy else 1900 + yy
        if d = 0 ∨ daysInMonth m y < d then none
        else some (d, m, y)

/-- Embedding of optionstrader._parse_expiry: parse a day-month-year expiry
token, none on failure (the zero-padding branch of the source is subsumed by
the parser accepting one or two day digits, exactly as strptime does). -/
def _parse_expiry (tok : String) : Option (ℕ × ℕ × ℕ) :=
  parseExpiryCodes (tok.data.map Char.toNat)

/-- Instrument record as consumed by choose_symbol_by_risk: its symbol,
modelled as the list of dash-separated fields (the empty list models a falsy
or missing symbol). -/
structure Instrument where
  symbol : List String
deriving DecidableEq

/-- Exchange environment for choose_symbol_by_risk: the instrument chain
returned by fetch_option_instruments (error = the RuntimeError it raises)
and the mark price per symbol from fetch_option_ticker (error = its
RuntimeError). -/
structure ChainEnv where
  instruments : Except String (List Instrument)
  ticker : List String → Except String ℚ

/-- Embedding of the local expiry_from_symbol helper: the parsed expiry of
field 1, none standing for datetime.max. -/
def expiry_from_symbol (sym : List String) : Option (ℕ × ℕ × ℕ) :=
  match sym.get? 1 with
  | some tok => _parse_expiry tok
  | none => none

/-- Sort key of the instrument sort: parsed expiry encoded as a number, with
unparseable expiries (datetime.max) largest. -/
def expRank : Option (ℕ × ℕ × ℕ) → ℕ
  | none => 100000000
  | some (d, m, y) => y * 10000 + m * 100 + d

/-- Expiry order on instruments used by the sort in choose_symbol_by_risk. -/
def instLE (a b : Instrument) : Prop :=
  expRank (expiry_from_symbol a.symbol) ≤ expRank (expiry_from_symbol b.symbol)

instance : DecidableRel instLE := fun a b =>
  inferInstanceAs (Decidable (expRank (expiry_from_symbol a.symbol) ≤
    expRank (expiry_from_symbol b.symbol)))

instance : IsTotal Instrument instLE :=
  ⟨fun a b => Nat.le_total (expRank (expiry_from_symbol a.symbol))
    (expRank (expiry_from_symbol b.symbol))⟩

instance : IsTrans Instrument instLE := ⟨fun _ _ _ h1 h2 => le_trans h1 h2⟩

/-- The best-price scan at the bottom of choose_symbol_by_risk: fold over the
cohort keeping (best symbol, best price, best diff so far, none = infinity);
a ticker failure propagates as the RuntimeError the Python loop would raise. -/
def pickBest (env : ChainEnv) (target : ℚ) :
    List Instrument → List String × ℚ × Option ℚ →
    Except String (List String × ℚ × Option ℚ)
  | [], st => .ok st
  | inst :: rest, (bs, bp, bd) =>
    if inst.symbol = [] then pickBest env target rest (bs, bp, bd)
    else
      match env.ticker inst.symbol with
      | .error e => .error e
      | .ok price =>
        let diff := |price - target|
        let better := match bd with
          | none => true
          | some b => decide (diff < b)
        if better then pickBest env target rest (inst.symbol, price, some diff)
        else pickBest env target rest (bs, bp, bd)

/-- The client-side option-type re-filter of choose_symbol_by_risk.  The
source indexes i.get('symbol','').split('-')[3] unguarded, so an instrument
whose symbol has fewer than four dash-fields (including a missing or empty
symbol) raises IndexError; the comprehension stops at the first such
instrument. -/
def filterByOptType (optU : String) : List Instrument → Except String (List Instrument)
  | [] => .ok []
  | i :: rest =>
    if i.symbol.length < 4 then .error "IndexError: list index out of range"
    else
      match filterByOptType optU rest with
      | .error e => .error e
      | .ok l =>
        .ok (if strUpper (i.symbol.getD 3 "") == optU then i :: l else l)

/-- Tail of choose_symbol_by_risk once the expiry cohort is fixed: sort by
expiry, restrict to the earliest expiry present, then scan for the mark price
closest to the target. -/
def chooseFromCohort (env : ChainEnv) (base_symbol : List String) (target : ℚ)
    (instruments2 : List Instrument) : Except String (List String × ℚ) :=
  match List.insertionSort instLE instruments2 with
  | [] => .ok (base_symbol, 0)
  | first :: rest =>
    let filtered := (first :: rest).filter
      (fun i => expiry_from_symbol i.symbol == expiry_from_symbol first.symbol)
    match pickBest env target filtered (base_symbol, 0, none) with
    | .error e => .error e
    | .ok (bs, bp, _) => .ok (bs, bp)

/-- Embedding of optionstrader.choose_symbol_by_risk over a ChainEnv. -/
def choose_symbol_by_risk (base_symbol : List String) (risk_usd qty : ℚ)
    (env : ChainEnv) : Except String (List String × ℚ) :=
  if risk_usd = 0 ∨ qty = 0 then .ok (base_symbol, 0)
  else if base_symbol.length < 5 then .ok (base_symbol, 0)
  else
    let opt_type := base_symbol.getD 3 ""
    let expiry_token := base_symbol.getD 1 ""
    match env.instruments with
    | .error e => .error e
    | .ok instruments0 =>
      if instruments0 = [] then .ok (base_symbol, 0)
      else
        match filterByOptType (strUpper opt_type) instruments0 with
        | .error e => .error e
        | .ok instruments1 =>
          if instruments1 = [] then .ok (base_symbol, 0)
          else
            let instruments2 :=
              match _parse_expiry expiry_token with
              | some e =>
                let same := instruments1.filter
                  (fun i => expiry_from_symbol i.symbol == some e)
                if same = [] then instruments1 else same
              | none => instruments1
            chooseFromCohort env base_symbol (risk_usd / qty) instruments2

theorem pickBest_ok (env : ChainEnv) (target : ℚ)
    (hok : ∀ s : List String, ∃ q : ℚ, env.ticker s = .ok q) :
    ∀ (l : List Instrument) (st : List String × ℚ × Option ℚ),
      ∃ st', pickBest env target l st = .ok st' := by
  intro l
  induction l with
  | nil => intro st; exact ⟨st, rfl⟩
  | cons inst rest ih =>
    rintro ⟨bs, bp, bd⟩
    simp only [pickBest]
    by_cases hs : inst.symbol = []
    · rw [if_pos hs]; exact ih _
    · rw [if_neg hs]
      obtain ⟨q, hq⟩ := hok inst.symbol
      rw [hq]
      dsimp only
      split
      · exact ih _
      · exact ih _

theorem chooseFromCohort_ok (env : ChainEnv) (base_symbol : List String)
    (target : ℚ) (instruments2 : List Instrument)
    (hok : ∀ s : List String, ∃ q : ℚ, env.ticker s = .ok q) :
    ∃ sym price, chooseFromCohort env base_symbol target instruments2 =
      .ok (sym, price) := by
  rw [chooseFromCohort]
  split
  · exact ⟨base_symbol, 0, rfl⟩
  · rename_i first rest heq
    obtain ⟨⟨bs, bp, bd⟩, hpb⟩ := pickBest_ok env target hok
      ((first :: rest).filter
        (fun i => expiry_from_symbol i.symbol == expiry_from_symbol first.symbol))
      (base_symbol, 0, none)
    simp only [hpb]
    exact ⟨bs, bp, rfl⟩

theorem filterByOptType_ok (optU : String) :
    ∀ l : List Instrument, (∀ i ∈ l, 4 ≤ i.symbol.length) →
      filterByOptType optU l =
        .ok (l.filter (fun i => strUpper (i.symbol.getD 3 "") == optU)) := by
  intro l
  induction l with
  | nil => intro h; rfl
  | cons i rest ih =>
    intro h
    rw [filterByOptType,
      if_neg (by have := h i (List.mem_cons_self i rest); omega),
      ih (fun j hj => h j (List.mem_cons_of_mem i hj)), List.filter_cons]

theorem filterByOptType_error (optU : String) :
    ∀ l : List Instrument, (∃ i ∈ l, i.symbol.length < 4) →
      ∃ e, filterByOptType optU l = .error e := by
  intro l
  induction l with
  | nil =>
    rintro ⟨i, hi, -⟩
    exact absurd hi (List.not_mem_nil i)
  | cons i rest ih =>
    rintro ⟨j, hj, hjlen⟩
    rw [filterByOptType]
    by_cases hi : i.symbol.length < 4
    · rw [if_pos hi]
      exact ⟨_, rfl⟩
    · rw [if_neg hi]
      have hjrest : j ∈ rest := by
        rcases List.mem_cons.mp hj with hj0 | hj0
        · subst hj0
          exact absurd hjlen hi
        · exact hj0
      obtain ⟨e, he⟩ := ih ⟨j, hjrest, hjlen⟩
      rw [he]
      exact ⟨e, rfl⟩

/-- Paginated history endpoint: for each queried window (start, end) the
cursor chain yields this finite sequence of pages.  The same model serves the
execution-list endpoint of list_trade_history and the delivery-record
endpoint of list_delivery_history, which run the identical loop. -/
structure HistEnv (α : Type) where
  pages : ℤ → ℤ → List (List α)

/-- Fully drain one window's cursor chain: concatenate its pages in order,
exactly as the inner while-True loop of the history methods does. -/
def drainWindow {α : Type} (env : HistEnv α) (s e : ℤ) : List α :=
  (env.pages s e).flatten

/-- Seven days in milliseconds, the exchange's maximum window span. -/
def maxRangeMs : ℤ := 7 * 24 * 60 * 60 * 1000

/-- Result of the outer windowing loop: the window trace in query order, the
accumulated records, and the loop variables at exit. -/
structure HistResult (α : Type) where
  windows : List (ℤ × ℤ)
  records : List α
  finalEnd : ℤ
  finalRuns : ℕ
deriving DecidableEq

/-- The outer loop shared by list_trade_history and list_delivery_history:
work backward from currentEnd in windows of at most seven days, drain each
window fully, and stop at the start boundary or after three consecutive
empty windows. -/
def historyLoop {α : Type} (env : HistEnv α) (startTime : ℤ)
    (currentEnd : ℤ) (emptyRuns : ℕ) : HistResult α :=
  if _h : startTime < currentEnd ∧ emptyRuns < 3 then
    let currentStart := max startTime (currentEnd - maxRangeMs)
    let chunk := drainWindow env currentStart currentEnd
    let next := historyLoop env startTime (currentStart - 1)
      (if chunk.isEmpty then emptyRuns + 1 else 0)
    ⟨(currentStart, currentEnd) :: next.windows, chunk ++ next.records,
      next.finalEnd, next.finalRuns⟩
  else ⟨[], [], currentEnd, emptyRuns⟩
termination_by (currentEnd - startTime).toNat
decreasing_by
  simp only [maxRangeMs]
  omega

/-- Embedding of BybitOptionsTrader.list_trade_history (with an explicit
end_time; the None default is resolved by the caller to the current time). -/
def list_trade_history {α : Type} (env : HistEnv α) (start_time end_time : ℤ) :
    HistResult α :=
  historyLoop env start_time end_time 0

/-- Embedding of BybitOptionsTrader.list_delivery_history, the identical
loop against the delivery-record endpoint. -/
def list_delivery_history {α : Type} (env : HistEnv α)
    (start_time end_time : ℤ) : HistResult α :=
  historyLoop env start_time end_time 0

theorem historyLoop_spec {α : Type} (env : HistEnv α) (st : ℤ) :
    ∀ (ce : ℤ) (r : ℕ), r ≤ 3 →
      (∀ w ∈ (historyLoop env st ce r).windows,
        st ≤ w.1 ∧ w.1 ≤ w.2 ∧ w.2 ≤ ce ∧ w.2 - w.1 ≤ maxRangeMs) ∧
      (∀ w0 ∈ (historyLoop env st ce r).windows.head?, w0.2 = ce) ∧
      List.Chain' (fun w1 w2 => w2.2 = w1.1 - 1) (historyLoop env st ce r).windows ∧
      (historyLoop env st ce r).records =
        ((historyLoop env st ce r).windows.map
          (fun w => drainWindow env w.1 w.2)).flatten ∧
      (historyLoop env st ce r).finalRuns ≤ 3 ∧
      ((historyLoop env st ce r).finalEnd ≤ st ∨
        (historyLoop env st ce r).finalRuns = 3) ∧
      ((historyLoop env st ce r).finalRuns = 3 →
        ∃ pre suf, (historyLoop env st ce r).windows = pre ++ suf ∧
          (∀ w ∈ suf, drainWindow env w.1 w.2 = []) ∧
          ((pre = [] ∧ 3 ≤ suf.length + r) ∨ 3 ≤ suf.length)) := by
  have hMR : maxRangeMs = 604800000 := by norm_num [maxRangeMs]
  suffices H : ∀ n : ℕ, ∀ ce : ℤ, (ce - st).toNat = n → ∀ r : ℕ, r ≤ 3 →
      (∀ w ∈ (historyLoop env st ce r).windows,
        st ≤ w.1 ∧ w.1 ≤ w.2 ∧ w.2 ≤ ce ∧ w.2 - w.1 ≤ maxRangeMs) ∧
      (∀ w0 ∈ (historyLoop env st ce r).windows.head?, w0.2 = ce) ∧
      List.Chain' (fun w1 w2 => w2.2 = w1.1 - 1) (historyLoop env st ce r).windows ∧
      (historyLoop env st ce r).records =
        ((historyLoop env st ce r).windows.map
          (fun w => drainWindow env w.1 w.2)).flatten ∧
      (historyLoop env st ce r).finalRuns ≤ 3 ∧
      ((historyLoop env st ce r).finalEnd ≤ st ∨
        (historyLoop env st ce r).finalRuns = 3) ∧
      ((historyLoop env st ce r).finalRuns = 3 →
        ∃ pre suf, (historyLoop env st ce r).windows = pre ++ suf ∧
          (∀ w ∈ suf, drainWindow env w.1 w.2 = []) ∧
          ((pre = [] ∧ 3 ≤ suf.length + r) ∨ 3 ≤ suf.length)) by
    intro ce r hr
    exact H _ ce rfl r hr
  intro n
  induction n using Nat.strong_induction_on with
  | _ n ih =>
    intro ce hn r hr
    by_cases hg : st < ce ∧ r < 3
    · have hM0 : (0 : ℤ) < maxRangeMs := by rw [hMR]; norm_num
      set cs := max st (ce - maxRangeMs) with hcs
      set chunk := drainWindow env cs ce with hchunk
      set r2 := if chunk.isEmpty then r + 1 else 0 with hr2
      set next := historyLoop env st (cs - 1) r2 with hnext
      have hstep : historyLoop env st ce r =
          ⟨(cs, ce) :: next.windows, chunk ++ next.records,
            next.finalEnd, next.finalRuns⟩ := by
        rw [historyLoop, dif_pos hg]
      have hcs1 : st ≤ cs := le_max_left _ _
      have hcs2 : cs ≤ ce := by omega
      have hspan : ce - cs ≤ maxRangeMs := by omega
      have hr2le : r2 ≤ 3 := by
        rw [hr2]; split <;> omega
      have hn2 : (cs - 1 - st).toNat < n := by omega
      obtain ⟨IH1, IH2, IH3, IH4, IH5, IH6, IH7⟩ :=
        ih _ hn2 (cs - 1) rfl r2 hr2le
      rw [hstep]
      refine ⟨?_, ?_, ?_, ?_, IH5, IH6, ?_⟩
      · intro w hw
        rcases List.mem_cons.mp hw with hw | hw
        · subst hw
          exact ⟨hcs1, hcs2, le_refl _, hspan⟩
        · obtain ⟨h1, h2, h3, h4⟩ := IH1 w hw
          exact ⟨h1, h2, by omega, h4⟩
      · intro w0 hw0
        simp only [List.head?_cons, Option.mem_def, Option.some.injEq] at hw0
        subst hw0
        rfl
      · refine List.chain'_cons'.mpr ⟨?_, IH3⟩
        intro w0 hw0
        exact IH2 w0 hw0
      · simp only [List.map_cons, List.flatten_cons]
        rw [IH4]
      · intro h3
        obtain ⟨pre, suf, hw, hemp, hlen⟩ := IH7 h3
        rcases hlen with ⟨hpre, hcount⟩ | hsuf
        · by_cases hch : chunk.isEmpty
          · refine ⟨[], (cs, ce) :: suf, ?_, ?_, Or.inl ⟨rfl, ?_⟩⟩
            · rw [hw, hpre]
              rfl
            · intro w hw2
              rcases List.mem_cons.mp hw2 with hw2 | hw2
              · subst hw2
                exact List.isEmpty_iff.mp hch
              · exact hemp w hw2
            · have : r2 = r + 1 := by rw [hr2, if_pos hch]
              simp only [List.length_cons]
              omega
          · have hr20 : r2 = 0 := by rw [hr2, if_neg hch]
            refine ⟨(cs, ce) :: pre, suf, ?_, hemp, Or.inr (by omega)⟩
            rw [hw]
            rfl
        · refine ⟨(cs, ce) :: pre, suf, ?_, hemp, Or.inr hsuf⟩
          rw [hw]
          rfl
    · have hstep : historyLoop env st ce r = ⟨[], [], ce, r⟩ := by
        rw [historyLoop, dif_neg hg]
      rw [hstep]
      refine ⟨by simp, by simp, List.chain'_nil, rfl, hr, ?_, ?_⟩
      · dsimp only
        omega
      · intro h3
        refine ⟨[], [], rfl, by simp, Or.inl ⟨rfl, ?_⟩⟩
        dsimp only at h3
        omega

/-- C4: for start_time < end_time, the history loops issue backward windows
each spanning at most seven days of milliseconds, contiguous (each next
window ends one millisecond before the previous window's start, hence
strictly earlier), drain every page of a window before the next window's
records appear, and stop only by reaching the start boundary or after at
least three consecutive empty windows; list_delivery_history runs the
identical loop. -/
theorem list_history_windows_spec {α : Type} (env : HistEnv α)
    (start_time end_time : ℤ) (_hlt : start_time < end_time) :
    (∀ w ∈ (list_trade_history env start_time end_time).windows,
      start_time ≤ w.1 ∧ w.1 ≤ w.2 ∧ w.2 ≤ end_time ∧
        w.2 - w.1 ≤ 7 * 24 * 60 * 60 * 1000) ∧
    List.Chain' (fun w1 w2 => w2.2 = w1.1 - 1)
      (list_trade_history env start_time end_time).windows ∧
    (list_trade_history env start_time end_time).records =
      ((list_trade_history env start_time end_time).windows.map
        (fun w => drainWindow env w.1 w.2)).flatten ∧
    ((list_trade_history env start_time end_time).finalEnd ≤ start_time ∨
      ((list_trade_history env start_time end_time).finalRuns = 3 ∧
        ∃ pre suf,
          (list_trade_history env start_time end_time).windows = pre ++ suf ∧
          3 ≤ suf.length ∧ ∀ w ∈ suf, drainWindow env w.1 w.2 = [])) ∧
    list_delivery_history env start_time end_time =
      list_trade_history env start_time end_time := by
  obtain ⟨H1, H2, H3, H4, H5, H6, H7⟩ :=
    historyLoop_spec env start_time end_time 0 (by norm_num)
  refine ⟨?_, H3, H4, ?_, rfl⟩
  · intro w hw
    obtain ⟨a, b, c, d⟩ := H1 w hw
    exact ⟨a, b, c, d⟩
  · rcases H6 with h6 | h6
    · exact Or.inl h6
    · obtain ⟨pre, suf, hw, hemp, hlen⟩ := H7 h6
      refine Or.inr ⟨h6, pre, suf, hw, ?_, hemp⟩
      rcases hlen with ⟨-, hc⟩ | hc
      · omega
      · exact hc

/-- C4 witness: the pagination invariant instantiated on an environment with
no records over the range 0 < 1. -/
theorem list_history_windows_spec_witness :
    (0 : ℤ) < 1 ∧
    (list_trade_history (⟨fun _ _ => []⟩ : HistEnv ℕ) 0 1).records =
      ((list_trade_history (⟨fun _ _ => []⟩ : HistEnv ℕ) 0 1).windows.map
        (fun w => drainWindow (⟨fun _ _ => []⟩ : HistEnv ℕ) w.1 w.2)).flatten :=
  ⟨by norm_num,
   (list_history_windows_spec (⟨fun _ _ => []⟩ : HistEnv ℕ) 0 1 (by norm_num)).2.2.1⟩

/-- ASCII code of a decimal digit value. -/
def digitCode (d : ℕ) : ℕ := 48 + d

/-- Decimal string of a natural number as ASCII codes, as Python str builds
it. -/
def natToCodes (n : ℕ) : List ℕ :=
  if n = 0 then [48] else ((Nat.digits 10 n).reverse).map digitCode

/-- Last two characters of str(year) for a four-digit year: the year modulo
100, zero padded to two digits. -/
def twoDigitCodes (n : ℕ) : List ℕ :=
  [digitCode (n / 10 % 10), digitCode (n % 10)]

/-- Year normalization of build_option_symbol: two-digit years denote 2000+. -/
def normYear (y : ℕ) : ℕ := if y < 100 then y + 2000 else y

/-- Embedding of optionstrader.build_option_symbol over ASCII-code fields:
uppercase the base, quote and option type, keep the option type's first
letter, normalize the expiry (given as the day/month/year numbers the source
splits out of the expiry string) into the day month-token two-digit-year
form, and emit the five dash-separated fields of the symbol. -/
def build_option_symbol (base : List ℕ) (strike : ℕ) (option_type : List ℕ)
    (day month year : ℕ) (quote : List ℕ) : List (List ℕ) :=
  let baseU := base.map upperCode
  let quoteU := quote.map upperCode
  let optU := (option_type.map upperCode).take 1
  let y := normYear year
  let month_token := monthCodes.getD (month - 1) []
  let expiry_token := natToCodes day ++ month_token ++ twoDigitCodes y
  [baseU, expiry_token, natToCodes strike, optU, quoteU]

/-- Option type as _parse_symbol reports it. -/
inductive OptTypeTag where
  | CALL
  | PUT
deriving DecidableEq

/-- Option type denoted by an option-type argument: CALL when its first
letter uppercases to C, PUT otherwise (the classification the spec's
round-trip property expects). -/
def optTag (opt : List ℕ) : OptTypeTag :=
  if (opt.map upperCode).head? = some 67 then .CALL else .PUT

/-- Embedding of journal_trades._parse_symbol over the dash-separated fields:
base, parsed expiry date, strike value and CALL/PUT tag; none models the
exceptions strptime or float raise on malformed fields (the strike parser
covers the decimal-digit strings that constructed symbols contain). -/
def _parse_symbol (fields : List (List ℕ)) :
    Option (List ℕ × (ℕ × ℕ × ℕ) × ℕ × OptTypeTag) :=
  match fields with
  | base :: expiry_str :: strike :: opt :: _ =>
    match parseExpiryCodes expiry_str with
    | none => none
    | some e =>
      if strike ≠ [] ∧ strike.all isDigitCode = true then
        some (base, e, natFromCodes strike,
          if (opt.map upperCode).head? = some 67 then .CALL else .PUT)
      else none
  | _ => none

theorem upperCode_of_lt {c : ℕ} (h : c < 97) : upperCode c = c := by
  rw [upperCode, if_neg]
  rintro ⟨h1, -⟩
  omega

theorem codeVal_digitCode (x : ℕ) : codeVal (digitCode x) = x := by
  simp [codeVal, digitCode]

theorem natToCodes_all_digits (n : ℕ) :
    ∀ c ∈ natToCodes n, isDigitCode c = true := by
  intro c hc
  rw [natToCodes] at hc
  split at hc
  · simp at hc
    subst hc
    rfl
  · simp only [List.mem_map, List.mem_reverse] at hc
    obtain ⟨x, hx, hcx⟩ := hc
    have hx10 : x < 10 := Nat.digits_lt_base (by norm_num) hx
    subst hcx
    simp only [isDigitCode, digitCode, Bool.and_eq_true, decide_eq_true_eq]
    omega

theorem isDigitCode_lt {c : ℕ} (h : isDigitCode c = true) : c < 97 := by
  simp only [isDigitCode, Bool.and_eq_true, decide_eq_true_eq] at h
  omega

theorem natFromCodes_natToCodes (n : ℕ) : natFromCodes (natToCodes n) = n := by
  rw [natToCodes]
  split
  · subst n
    rfl
  · rw [natFromCodes]
    have hmap : (((Nat.digits 10 n).reverse.map digitCode).map codeVal) =
        (Nat.digits 10 n).reverse := by
      rw [List.map_map]
      have : codeVal ∘ digitCode = id := by
        funext x
        simp [codeVal_digitCode]
      rw [this, List.map_id]
    rw [hmap, List.reverse_reverse, Nat.ofDigits_digits]

theorem natToCodes_ne_nil (n : ℕ) : natToCodes n ≠ [] := by
  rw [natToCodes]
  split
  · simp
  · simp only [ne_eq, List.map_eq_nil_iff, List.reverse_eq_nil_iff]
    exact Nat.digits_ne_nil_iff_ne_zero.mpr (by assumption)

theorem natToCodes_length_le {n : ℕ} (h : n ≤ 99) :
    (natToCodes n).length ≤ 2 := by
  rw [natToCodes]
  split
  · simp
  · rw [List.length_map, List.length_reverse]
    rw [Nat.digits_len 10 n (by norm_num) (by assumption)]
    have : Nat.log 10 n < 2 := Nat.log_lt_of_lt_pow (by assumption) (by omega)
    omega

theorem takeWhile_append_all {p : ℕ → Bool} {A B : List ℕ}
    (hA : ∀ a ∈ A, p a = true) :
    (A ++ B).takeWhile p = A ++ B.takeWhile p := by
  induction A with
  | nil => rfl
  | cons a l ih =>
    simp only [List.cons_append, List.takeWhile_cons]
    rw [hA a (by simp)]
    simp only [if_true]
    rw [ih (fun x hx => hA x (by simp [hx]))]

theorem dropWhile_append_all {p : ℕ → Bool} {A B : List ℕ}
    (hA : ∀ a ∈ A, p a = true) :
    (A ++ B).dropWhile p = B.dropWhile p := by
  induction A with
  | nil => rfl
  | cons a l ih =>
    simp only [List.cons_append, List.dropWhile_cons]
    rw [hA a (by simp)]
    simp only [if_true]
    exact ih (fun x hx => hA x (by simp [hx]))

theorem month_facts {m : ℕ} (hm1 : 1 ≤ m) (hm2 : m ≤ 12) :
    (monthCodes.getD (m - 1) []).length = 3 ∧
    (∀ c ∈ monthCodes.getD (m - 1) [], c < 97 ∧ isDigitCode c = false) ∧
    monthCodes.findIdx? (fun mm => mm == monthCodes.getD (m - 1) []) =
      some (m - 1) := by
  interval_cases m <;> exact ⟨by decide, by decide, by decide⟩

theorem natFromCodes_twoDigit (n : ℕ) :
    natFromCodes (twoDigitCodes n) = n % 100 := by
  simp only [natFromCodes, twoDigitCodes, List.map_cons, List.map_nil,
    codeVal_digitCode, List.reverse_cons, List.reverse_nil, List.nil_append,
    List.cons_append, Nat.ofDigits_cons, Nat.ofDigits_nil]
  omega

theorem daysInMonth_le_31 (m y : ℕ) : daysInMonth m y ≤ 31 := by
  rw [daysInMonth]
  split
  · split <;> norm_num
  · split <;> norm_num

theorem parseExpiry_build (d m Y : ℕ) (hm1 : 1 ≤ m) (hm2 : m ≤ 12)
    (hd1 : 1 ≤ d) (hd2 : d ≤ daysInMonth m Y)
    (hy1 : 2000 ≤ Y) (hy2 : Y ≤ 2068) :
    parseExpiryCodes
        (natToCodes d ++ monthCodes.getD (m - 1) [] ++ twoDigitCodes Y) =
      some (d, m, Y) := by
  obtain ⟨hlen3, hmon, hidx⟩ := month_facts hm1 hm2
  have htwo : ∀ c ∈ twoDigitCodes Y, isDigitCode c = true := by
    intro c hc
    simp only [twoDigitCodes, List.mem_cons, List.not_mem_nil, or_false] at hc
    rcases hc with hc | hc <;>
      · subst hc
        simp only [isDigitCode, digitCode, Bool.and_eq_true, decide_eq_true_eq]
        omega
  have hall : ∀ c ∈ natToCodes d ++ monthCodes.getD (m - 1) [] ++ twoDigitCodes Y,
      c < 97 := by
    intro c hc
    simp only [List.append_assoc, List.mem_append] at hc
    rcases hc with hc | hc | hc
    · exact isDigitCode_lt (natToCodes_all_digits d c hc)
    · exact (hmon c hc).1
    · exact isDigitCode_lt (htwo c hc)
  have hsu : (natToCodes d ++ monthCodes.getD (m - 1) [] ++
      twoDigitCodes Y).map upperCode =
      natToCodes d ++ monthCodes.getD (m - 1) [] ++ twoDigitCodes Y := by
    rw [List.map_congr_left (fun a ha => upperCode_of_lt (hall a ha))]
    simp
  have hds : (natToCodes d ++ monthCodes.getD (m - 1) [] ++
      twoDigitCodes Y).takeWhile isDigitCode = natToCodes d := by
    rw [List.append_assoc, takeWhile_append_all (natToCodes_all_digits d)]
    cases hmc : monthCodes.getD (m - 1) [] with
    | nil => rw [hmc] at hlen3; simp at hlen3
    | cons c0 cs =>
      have hcnd : isDigitCode c0 = false := (hmon c0 (by rw [hmc]; simp)).2
      simp [List.takeWhile_cons, hcnd]
  have hrest : (natToCodes d ++ monthCodes.getD (m - 1) [] ++
      twoDigitCodes Y).dropWhile isDigitCode =
      monthCodes.getD (m - 1) [] ++ twoDigitCodes Y := by
    rw [List.append_assoc, dropWhile_append_all (natToCodes_all_digits d)]
    cases hmc : monthCodes.getD (m - 1) [] with
    | nil => rw [hmc] at hlen3; simp at hlen3
    | cons c0 cs =>
      have hcnd : isDigitCode c0 = false := (hmon c0 (by rw [hmc]; simp)).2
      simp [List.dropWhile_cons, hcnd]
  have hd31 : d ≤ 31 := le_trans hd2 (daysInMonth_le_31 m Y)
  simp only [parseExpiryCodes, hsu, hds, hrest]
  rw [if_neg (by
    push_neg
    refine ⟨fun h0 => absurd (List.length_eq_zero.mp h0) (natToCodes_ne_nil d), ?_⟩
    exact natToCodes_length_le (by omega))]
  rw [show (monthCodes.getD (m - 1) [] ++ twoDigitCodes Y).take 3 =
      monthCodes.getD (m - 1) [] by rw [← hlen3, List.take_left]]
  rw [show (monthCodes.getD (m - 1) [] ++ twoDigitCodes Y).drop 3 =
      twoDigitCodes Y by rw [← hlen3, List.drop_left]]
  rw [if_neg (by
    push_neg
    refine ⟨rfl, ?_⟩
    simp only [List.all_eq_true]
    exact htwo)]
  simp only [hidx]
  have hm3 : m - 1 + 1 = m := by omega
  rw [hm3, natFromCodes_natToCodes, natFromCodes_twoDigit]
  have hyy : Y % 100 ≤ 68 := by omega
  rw [if_pos hyy]
  have hY : 2000 + Y % 100 = Y := by omega
  rw [hY]
  rw [if_neg (by push_neg; exact ⟨by omega, by omega⟩)]

/-- C6: parsing a symbol produced by construction from valid parts (canonical
uppercase base, option type starting with C or P, a real calendar date with
normalized year between 2000 and 2068) recovers the same base asset, the
same expiry date, the same strike value and the CALL/PUT tag matching the
given option type. -/
theorem parse_build_roundtrip (base : List ℕ) (strike : ℕ) (opt : List ℕ)
    (d m y : ℕ) (quote : List ℕ)
    (hbase : base.map upperCode = base)
    (hopt : ∃ c rest2, opt.map upperCode = c :: rest2 ∧ (c = 67 ∨ c = 80))
    (hm1 : 1 ≤ m) (hm2 : m ≤ 12)
    (hd1 : 1 ≤ d) (hd2 : d ≤ daysInMonth m (normYear y))
    (hy1 : 2000 ≤ normYear y) (hy2 : normYear y ≤ 2068) :
    _parse_symbol (build_option_symbol base strike opt d m y quote) =
      some (base, (d, m, normYear y), strike, optTag opt) := by
  obtain ⟨c, rest2, hoptU, hc⟩ := hopt
  have hc97 : c < 97 := by rcases hc with hc | hc <;> omega
  have hguard : natToCodes strike ≠ [] ∧
      (natToCodes strike).all isDigitCode = true :=
    ⟨natToCodes_ne_nil strike, by
      simp only [List.all_eq_true]
      exact natToCodes_all_digits strike⟩
  have htag : (((opt.map upperCode).take 1).map upperCode).head? = some c := by
    rw [hoptU]
    show some (upperCode c) = some c
    rw [upperCode_of_lt hc97]
  rw [build_option_symbol]
  simp only [_parse_symbol]
  simp only [parseExpiry_build d m (normYear y) hm1 hm2 hd1 hd2 hy1 hy2]
  rw [if_pos hguard]
  rw [hbase, natFromCodes_natToCodes, htag]
  rw [optTag, hoptU]
  simp only [List.head?_cons]

/-- C6 witness: the round trip instantiated at the concrete parts of the
symbol BTC-7JUN25-114000-P-USDT. -/
theorem parse_build_roundtrip_witness :
    _parse_symbol (build_option_symbol
        [66, 84, 67] 114000 [80, 85, 84] 7 6 25 [85, 83, 68, 84]) =
      some ([66, 84, 67], (7, 6, 2025), 114000, optTag [80, 85, 84]) :=
  parse_build_roundtrip [66, 84, 67] 114000 [80, 85, 84] 7 6 25 [85, 83, 68, 84]
    (by decide) ⟨80, [85, 84], by decide, Or.inr rfl⟩ (by norm_num) (by norm_num)
    (by norm_num) (by decide) (by decide) (by decide)

/-- Gauss error function, as math.erf computes it. -/
noncomputable def erf (x : ℝ) : ℝ :=
  2 / Real.sqrt Real.pi * ∫ u in (0 : ℝ)..x, Real.exp (-(u ^ 2))

/-- Embedding of journal_trades._norm_pdf. -/
noncomputable def _norm_pdf (x : ℝ) : ℝ :=
  Real.exp (-0.5 * x * x) / Real.sqrt (2 * Real.pi)

/-- Embedding of journal_trades._norm_cdf. -/
noncomputable def _norm_cdf (x : ℝ) : ℝ :=
  0.5 * (1 + erf (x / Real.sqrt 2))

/-- Embedding of journal_trades._greeks.  Missing inputs are none; the
Except layer carries the exceptions Python arithmetic raises (division by a
zero strike, log of a non-positive ratio). -/
noncomputable def _greeks (option : String) (s k t sigma qty : Option ℝ) :
    Except String (Option (ℝ × ℝ × ℝ × ℝ)) :=
  match s, k, t, sigma, qty with
  | some s, some k, some t, some sigma, some qty =>
    if t ≤ 0 ∨ sigma ≤ 0 then .ok none
    else if k = 0 then .error "ZeroDivisionError"
    else if s / k ≤ 0 then .error "math domain error"
    else
      let d1 := (Real.log (s / k) + 0.5 * sigma ^ 2 * t) / (sigma * Real.sqrt t)
      let pdf := _norm_pdf d1
      let delta := if option = "CALL" then _norm_cdf d1 else _norm_cdf d1 - 1
      let theta := -(s * pdf * sigma) / (2 * Real.sqrt t)
      let gamma := pdf / (s * sigma * Real.sqrt t)
      let vega := s * pdf * Real.sqrt t / 100
      .ok (some (delta * qty, gamma * qty, theta / 365 * qty, vega * qty))
  | _, _, _, _, _ => .ok none

/-- Black-Scholes d1, named for the specification-side statements. -/
noncomputable def bs_d1 (s k t sigma : ℝ) : ℝ :=
  (Real.log (s / k) + 0.5 * sigma ^ 2 * t) / (sigma * Real.sqrt t)

/-- Per-contract Black-Scholes delta. -/
noncomputable def bsDelta (option : String) (s k t sigma : ℝ) : ℝ :=
  if option = "CALL" then _norm_cdf (bs_d1 s k t sigma)
  else _norm_cdf (bs_d1 s k t sigma) - 1

/-- Per-contract Black-Scholes gamma. -/
noncomputable def bsGamma (s k t sigma : ℝ) : ℝ :=
  _norm_pdf (bs_d1 s k t sigma) / (s * sigma * Real.sqrt t)

/-- Per-contract annualized Black-Scholes theta. -/
noncomputable def bsThetaAnnual (s k t sigma : ℝ) : ℝ :=
  -(s * _norm_pdf (bs_d1 s k t sigma) * sigma) / (2 * Real.sqrt t)

/-- Per-contract Black-Scholes vega per unit volatility move. -/
noncomputable def bsVegaPerVol (s k t sigma : ℝ) : ℝ :=
  s * _norm_pdf (bs_d1 s k t sigma) * Real.sqrt t

/-- C9 counterexample: at spot 0 (with strike, expiry, volatility and
quantity all 1 and none of the gating conditions met) the code raises a math
domain error from log(s/k) instead of returning the claimed finite Greeks. -/
theorem greeks_domain_counterexample :
    _greeks "CALL" (some 0) (some 1) (some 1) (some 1) (some 1) =
      .error "math domain error" ∧
    ∀ v : ℝ × ℝ × ℝ × ℝ,
      _greeks "CALL" (some 0) (some 1) (some 1) (some 1) (some 1) ≠
        .ok (some v) := by
  have h : _greeks "CALL" (some 0) (some 1) (some 1) (some 1) (some 1) =
      .error "math domain error" := by
    simp only [_greeks]
    rw [if_neg (by norm_num), if_neg (by norm_num), if_pos (by norm_num)]
  exact ⟨h, fun v hv => by rw [h] at hv; exact Except.noConfusion hv⟩

/-- C9 amended: _greeks returns all-None when any input is missing or when
time-to-expiry or volatility is non-positive; it raises a domain error when
the strike is zero or the spot/strike ratio is non-positive; for all other
inputs it returns present values, each scaled by the position quantity, with
theta the annual theta divided by 365 (per calendar day) and vega the
per-unit vega divided by 100 (per one percent volatility move). -/
theorem greeks_spec_amended (option : String) (os okk ot osg oq : Option ℝ) :
    ((os = none ∨ okk = none ∨ ot = none ∨ osg = none ∨ oq = none) →
      _greeks option os okk ot osg oq = .ok none) ∧
    (∀ s k t sigma qty, os = some s → okk = some k → ot = some t →
      osg = some sigma → oq = some qty → (t ≤ 0 ∨ sigma ≤ 0) →
      _greeks option os okk ot osg oq = .ok none) ∧
    (∀ s k t sigma qty, os = some s → okk = some k → ot = some t →
      osg = some sigma → oq = some qty → 0 < t → 0 < sigma → k ≠ 0 →
      0 < s / k →
      _greeks option os okk ot osg oq = .ok (some
        (bsDelta option s k t sigma * qty,
         bsGamma s k t sigma * qty,
         bsThetaAnnual s k t sigma / 365 * qty,
         bsVegaPerVol s k t sigma / 100 * qty))) := by
  refine ⟨?_, ?_, ?_⟩
  · intro h
    cases os <;> cases okk <;> cases ot <;> cases osg <;> cases oq <;>
      first
        | rfl
        | simp at h
  · intro s k t sigma qty hs hk ht hsg hq hcond
    subst hs; subst hk; subst ht; subst hsg; subst hq
    simp only [_greeks]
    rw [if_pos hcond]
  · intro s k t sigma qty hs hk ht hsg hq hct hcs hkne hratio
    subst hs; subst hk; subst ht; subst hsg; subst hq
    simp only [_greeks]
    rw [if_neg (by push_neg; exact ⟨hct, hcs⟩), if_neg hkne,
      if_neg (not_le.mpr hratio)]
    rfl

/-- C9 witness: the all-None gate at missing volatility and the value shape
at spot, strike, expiry, volatility and quantity all 1. -/
theorem greeks_spec_amended_witness :
    _greeks "CALL" (some 1) (some 1) (some 1) none (some 1) = .ok none ∧
    _greeks "CALL" (some 1) (some 1) (some 1) (some 1) (some 1) = .ok (some
      (bsDelta "CALL" 1 1 1 1 * 1,
       bsGamma 1 1 1 1 * 1,
       bsThetaAnnual 1 1 1 1 / 365 * 1,
       bsVegaPerVol 1 1 1 1 / 100 * 1)) :=
  ⟨(greeks_spec_amended "CALL" (some 1) (some 1) (some 1) none (some 1)).1
      (by tauto),
   (greeks_spec_amended "CALL" (some 1) (some 1) (some 1) (some 1) (some 1)).2.2
      1 1 1 1 1 rfl rfl rfl rfl rfl (by norm_num) (by norm_num) (by norm_num)
      (by norm_num)⟩
